import Mathlib

/-! Verification development for the pyforming repository.

Part 1 embeds the three implemented beamforming routines (mrt.py,
slnr_max.py, zfbf.py) over the complex numbers.

Part 2 models the branch-reduce-and-bound (BRB) solver.  The file
brb_algorithm_cvx.py declares the function brb_algorithm_cvx together with a
full docstring but its body is the single statement pass: the algorithm itself
is absent from the repository, so the solver is modelled from the design
document (spec.md), as recorded in each doc comment below. -/

namespace Pyforming

/-! ### Beamforming routines (embedded from the source) -/

/-- Default antenna-selection mask stack.  When the argument d of a
beamforming routine is omitted, the source builds
np.tile(np.eye(n), [kr, 1, 1]): a stack of kr identity matrices, meaning that
every antenna may transmit to every user. -/
def defaultMask (kr n : ℕ) : Fin kr → Matrix (Fin n) (Fin n) ℂ := fun _ => 1

/-- Masked channel of user k, from mrt.py: the source computes
np.conj(np.transpose(np.matmul(h[k, :], d[k, :, :]))), the conjugate
transpose of row k of h multiplied by the k-th antenna mask. -/
noncomputable def maskedChannel {kr n : ℕ} (h : Matrix (Fin kr) (Fin n) ℂ)
    (d : Fin kr → Matrix (Fin n) (Fin n) ℂ) (k : Fin kr) : Fin n → ℂ :=
  fun j => star (Matrix.vecMul (h k) (d k) j)

/-- Euclidean norm of a complex vector, modelling np.linalg.norm(v, ord=2). -/
noncomputable def vnorm {n : ℕ} (v : Fin n → ℂ) : ℝ :=
  Real.sqrt (∑ j, Complex.normSq (v j))

/-- Embedding of mrt from mrt.py.  Column k of the returned Kt*Nt x Kr matrix
is the masked channel of user k divided by its Euclidean norm; an omitted mask
argument is replaced by the identity stack exactly as in the source's
None-check. -/
noncomputable def mrt {kr n : ℕ} (h : Matrix (Fin kr) (Fin n) ℂ)
    (dOpt : Option (Fin kr → Matrix (Fin n) (Fin n) ℂ)) :
    Matrix (Fin n) (Fin kr) ℂ :=
  let d := dOpt.getD (defaultMask kr n)
  Matrix.of fun j k => maskedChannel h d k j / (vnorm (maskedChannel h d k) : ℂ)

/-- Model of np.linalg.lstsq applied to a square system A x = b.  For
invertible A the least-squares solution returned by the source is the exact
solution A⁻¹ b, which Matrix.inv supplies; on singular A both sides produce a
junk value (the source a pseudoinverse solution, the model 0). -/
noncomputable def lstsqVec {n : ℕ} (A : Matrix (Fin n) (Fin n) ℂ)
    (b : Fin n → ℂ) : Fin n → ℂ :=
  A⁻¹.mulVec b

/-- Model of np.linalg.lstsq applied to a square system A X = B with a matrix
right-hand side, as used by zfbf.py. -/
noncomputable def lstsqMat {m n : ℕ} (A : Matrix (Fin m) (Fin m) ℂ)
    (B : Matrix (Fin m) (Fin n) ℂ) : Matrix (Fin m) (Fin n) ℂ :=
  A⁻¹ * B

/-- Embedding of slnr_max from slnr_max.py.  For each user k the effective
channel is (h d[k])ᴴ, the projected vector solves
(eye(n)/eta[k] + E Eᴴ) x = E[:, k], and column k is that vector normalized.
Omitted eta defaults to the all-ones vector and omitted d to the identity
stack, as in the source's None-checks. -/
noncomputable def slnr_max {kr n : ℕ} (h : Matrix (Fin kr) (Fin n) ℂ)
    (etaOpt : Option (Fin kr → ℂ))
    (dOpt : Option (Fin kr → Matrix (Fin n) (Fin n) ℂ)) :
    Matrix (Fin n) (Fin kr) ℂ :=
  let eta := etaOpt.getD (fun _ => 1)
  let d := dOpt.getD (defaultMask kr n)
  Matrix.of fun j k =>
    let E := (h * d k).conjTranspose
    let p := lstsqVec ((eta k)⁻¹ • (1 : Matrix (Fin n) (Fin n) ℂ) +
      E * E.conjTranspose) (fun i => E i k)
    p j / (vnorm p : ℂ)

/-- Embedding of zfbf from zfbf.py.  For each user k the effective channel is
E = (h d[k])ᴴ, the channel inversion solves (Eᴴ E)ᵀ Xᵀ = Eᵀ (the source's
right-division rewritten), and column k of the transposed solution is
normalized.  Omitted d defaults to the identity stack. -/
noncomputable def zfbf {kr n : ℕ} (h : Matrix (Fin kr) (Fin n) ℂ)
    (dOpt : Option (Fin kr → Matrix (Fin n) (Fin n) ℂ)) :
    Matrix (Fin n) (Fin kr) ℂ :=
  let d := dOpt.getD (defaultMask kr n)
  Matrix.of fun j k =>
    let E := (h * d k).conjTranspose
    let ci := (lstsqMat (E.conjTranspose * E).transpose E.transpose).transpose
    ci j k / (vnorm (fun i => ci i k) : ℂ)

/-- Shape of a complex matrix, modelling numpy's ndarray.shape attribute. -/
def matShape {m n : ℕ} (_M : Matrix (Fin m) (Fin n) ℂ) : ℕ × ℕ := (m, n)

/-! ### The declared signature of brb_algorithm_cvx

brb_algorithm_cvx.py declares the function's parameter list; since the body is
missing, the parameter list is the only part of the solver that the source
decides.  Each entry pairs the declared parameter name (verbatim, including
the source's spellings) with true when the declaration supplies a default
value.  The declaration supplies no defaults and declares no problem-mode or
save-boxes parameter. -/
def brbAlgorithmCvxParams : List (String × Bool) :=
  [("H", false), ("D", false), ("Qsrt", false), ("q", false),
   ("boxes_lower_corners", false), ("boxer_upper_corners", false),
   ("wights", false), ("delta", false), ("epsilon", false),
   ("max_interations", false), ("max_func_evaluations", false),
   ("local_feasible", false)]

/-- A call may omit a parameter name exactly when the declaration either does
not declare it or declares it with a default value. -/
def acceptsOmitting (ps : List (String × Bool)) (nm : String) : Bool :=
  match ps.lookup nm with
  | some hasDefault => hasDefault
  | none => true

/-- Whether the declaration declares a parameter of the given name (a keyword
argument with any other name is rejected by the Python call protocol). -/
def declaresParam (ps : List (String × Bool)) (nm : String) : Bool :=
  (ps.lookup nm).isSome

/-! ### The BRB solver, modelled from the spec

Rates, weights and bounds are modelled by rational numbers, and the external
convex feasibility oracle by a function returning some witness beamformer (of
an abstract type W) when the queried rate point is achievable and none
otherwise.  The bound evaluator is modelled for the default WeightedSumRate
objective described in spec.md section 4.2; the proportional-fairness branch
(FPO line search) is not modelled. -/

/-- Modelled from the spec: a Box is an axis-aligned hyper-rectangle in
Kr-dimensional rate space, carrying its lower and upper corner together with
cached upper and lower bounds on the utility attainable inside it. -/
structure Box (Kr : ℕ) where
  lower : Fin Kr → ℚ
  upper : Fin Kr → ℚ
  cachedU : ℚ
  cachedL : ℚ
deriving DecidableEq

/-- Modelled from the spec: the error taxonomy entry InvalidInput, refined
into the conditions the spec lists (shape mismatches, non-positive weights,
corner ordering, negative rate coordinates) plus the positivity the spec
requires of the scalar and budget parameters. -/
inductive InputFault where
  | shapeMismatch
  | nonPositiveWeight
  | cornerOrder
  | negativeRate
  | nonPositiveParameter
deriving DecidableEq

/-- Modelled from the spec: terminal statuses of a solve.  Converged means the
epsilon gap closed; BudgetExhausted means maxIterations or
maxFuncEvaluations was reached before the gap closed; EmptyWorkingSet means
every box was pruned without ever establishing a feasible point. -/
inductive SolveStatus where
  | converged
  | budgetExhausted
  | emptyWorkingSet
deriving DecidableEq

/-- Modelled from the spec: the raw call-time inputs of the solve operation
(section 6 of spec.md).  Matrix arguments enter the model through their
shapes, which is all the validation and the search consult; the channel data
itself is consumed only by the external feasibility oracle. -/
structure RawInput where
  hShape : ℕ × ℕ
  dShape : ℕ × ℕ × ℕ
  qsqrtShape : ℕ × ℕ × ℕ
  qLength : ℕ
  weights : List ℚ
  lowerCorner : List ℚ
  upperCorner : List ℚ
  delta : ℚ
  epsilon : ℚ
  maxIterations : ℕ
  maxFuncEvaluations : ℕ
  localFeasible : Option (List ℚ)
  saveBoxes : Option Bool

/-- Number of users Kr, the first component of H's shape. -/
def rawKr (raw : RawInput) : ℕ := raw.hShape.1

/-- Modelled from the spec: dimension checks of InvalidInput.  D must be a
Kt*Nt x Kt*Nt x Kr stack, Qsqrt an N x N x L stack matching the length of q,
and every rate-space vector must have length Kr. -/
def shapesOk (raw : RawInput) : Bool :=
  decide (raw.dShape = (raw.hShape.2, raw.hShape.2, raw.hShape.1)) &&
  decide (raw.qsqrtShape.1 = raw.qsqrtShape.2.1) &&
  decide (raw.qsqrtShape.2.2 = raw.qLength) &&
  decide (raw.weights.length = rawKr raw) &&
  decide (raw.lowerCorner.length = rawKr raw) &&
  decide (raw.upperCorner.length = rawKr raw) &&
  (match raw.localFeasible with
   | some l => decide (l.length = rawKr raw)
   | none => true)

/-- Modelled from the spec: every user weight must be strictly positive. -/
def weightsOk (raw : RawInput) : Bool :=
  raw.weights.all fun x => decide (0 < x)

/-- Modelled from the spec: the lower corner must be component-wise at most
the upper corner. -/
def cornersOrdered (raw : RawInput) : Bool :=
  (raw.lowerCorner.zip raw.upperCorner).all fun q => decide (q.1 ≤ q.2)

/-- Modelled from the spec: no rate coordinate may be negative, including the
coordinates of an optional localFeasible seed. -/
def ratesNonneg (raw : RawInput) : Bool :=
  (raw.lowerCorner.all fun x => decide (0 ≤ x)) &&
  (raw.upperCorner.all fun x => decide (0 ≤ x)) &&
  (match raw.localFeasible with
   | some l => l.all fun x => decide (0 ≤ x)
   | none => true)

/-- Modelled from the spec: delta, epsilon and the two budgets must be
positive (section 6 of spec.md). -/
def paramsPositive (raw : RawInput) : Bool :=
  decide (0 < raw.delta) && decide (0 < raw.epsilon) &&
  decide (0 < raw.maxIterations) && decide (0 < raw.maxFuncEvaluations)

/-- Modelled from the spec: InvalidInput is surfaced immediately, before any
iteration; the first failing condition is reported. -/
def validateInput (raw : RawInput) : Option InputFault :=
  if !shapesOk raw then some InputFault.shapeMismatch
  else if !weightsOk raw then some InputFault.nonPositiveWeight
  else if !cornersOrdered raw then some InputFault.cornerOrder
  else if !ratesNonneg raw then some InputFault.negativeRate
  else if !paramsPositive raw then some InputFault.nonPositiveParameter
  else none

/-- An input is valid when validation reports no fault. -/
def validInput (raw : RawInput) : Bool := (validateInput raw).isNone

/-- Weighted sum utility of a rate point (the WeightedSumRate objective). -/
def wsum {Kr : ℕ} (w p : Fin Kr → ℚ) : ℚ := ∑ i, w i * p i

/-- Modelled from the spec: the global upper bound is the maximum cached
upper bound over the live boxes, bottom when the working set is empty. -/
def globalUB {Kr : ℕ} (boxes : List (Box Kr)) : WithBot ℚ :=
  boxes.foldr (fun b acc => max (b.cachedU : WithBot ℚ) acc) ⊥

/-- One step of the largest-side scan: keep the incumbent coordinate unless
the next coordinate has a strictly larger side. -/
def argmaxStep {Kr : ℕ} (l u : Fin Kr → ℚ) (best : Option (Fin Kr))
    (i : Fin Kr) : Option (Fin Kr) :=
  match best with
  | none => some i
  | some b => if u b - l b < u i - l i then some i else some b

/-- Index of a coordinate with the largest side length of a box, none exactly
when the rate space has dimension zero. -/
def argmaxSide {Kr : ℕ} (l u : Fin Kr → ℚ) : Option (Fin Kr) :=
  (List.finRange Kr).foldl (argmaxStep l u) none

/-- Modelled from the spec: branching splits a box along the coordinate with
the largest side length into two children of equal width on that axis
(halving bisection); both children inherit the refined bounds as initial cache
values. -/
def splitBox {Kr : ℕ} (b : Box Kr) (uNew lNew : ℚ) : List (Box Kr) :=
  match argmaxSide b.lower b.upper with
  | none => []
  | some j =>
    let mid := (b.lower j + b.upper j) / 2
    [⟨b.lower, Function.update b.upper j mid, uNew, lNew⟩,
     ⟨Function.update b.lower j mid, b.upper, uNew, lNew⟩]

/-- Membership of a rate point in a box. -/
def inBox {Kr : ℕ} (b : Box Kr) (x : Fin Kr → ℚ) : Prop :=
  ∀ i, b.lower i ≤ x i ∧ x i ≤ b.upper i

/-- Modelled from the spec: the solve-time parameters the engine consults,
including the external feasibility oracle with witness type W. -/
structure BRBParams (Kr : ℕ) (W : Type) where
  weights : Fin Kr → ℚ
  epsilon : ℚ
  maxIterations : ℕ
  maxFuncEvaluations : ℕ
  oracle : (Fin Kr → ℚ) → Option W
  saveBoxes : Bool

/-- Modelled from the spec: the SearchState of the engine: the incumbent and
its witness beamformer, the global lower bound, whether any feasible point was
ever established, the live boxes, the iteration and evaluation counters, and
the per-iteration histories. -/
structure EngineState (Kr : ℕ) (W : Type) where
  bestFeasible : Fin Kr → ℚ
  bestW : Option W
  lb : ℚ
  foundFeasible : Bool
  live : List (Box Kr)
  iters : ℕ
  evals : ℕ
  evalHist : List ℕ
  boundHist : List (ℚ × WithBot ℚ)
  boxHist : List (List ((Fin Kr → ℚ) × (Fin Kr → ℚ)))

/-- Modelled from the spec: best-first selection pops a box with the largest
cached upper bound from the working set (first-listed box wins ties). -/
def selectMax {Kr : ℕ} : List (Box Kr) → Option (Box Kr × List (Box Kr))
  | [] => none
  | b :: rest =>
    match selectMax rest with
    | none => some (b, [])
    | some (m, others) =>
      if m.cachedU ≤ b.cachedU then some (b, rest) else some (m, b :: others)

/-- Modelled from the spec: bound evaluation for the WeightedSumRate mode.
The box's upper corner is the optimistic point; its feasibility is checked
first, and when it is infeasible the lower corner supplies the certified
candidate.  The result pairs the certified rate point with its witness
beamformer, none when neither corner is certified. -/
def candOf {Kr : ℕ} {W : Type} (P : BRBParams Kr W) (box : Box Kr) :
    Option ((Fin Kr → ℚ) × W) :=
  match P.oracle box.upper with
  | some wb => some (box.upper, wb)
  | none =>
    match P.oracle box.lower with
    | some wb => some (box.lower, wb)
    | none => none

/-- Number of feasibility evaluations the bound step consumes: one when the
upper corner is already feasible, two otherwise. -/
def nEvalOf {Kr : ℕ} {W : Type} (P : BRBParams Kr W) (box : Box Kr) : ℕ :=
  if (P.oracle box.upper).isSome then 1 else 2

/-- Modelled from the spec: incumbent update.  When the certified candidate
strictly improves the global lower bound, the incumbent, its beamformer and
the bound are replaced; any certified candidate records that a feasible point
was established. -/
def incumbentUpdate {Kr : ℕ} {W : Type} (P : BRBParams Kr W)
    (st : EngineState Kr W) (cand : Option ((Fin Kr → ℚ) × W)) :
    EngineState Kr W :=
  match cand with
  | none => st
  | some pw =>
    if st.lb < wsum P.weights pw.1 then
      { st with
        bestFeasible := pw.1
        bestW := some pw.2
        lb := wsum P.weights pw.1
        foundFeasible := true }
    else
      { st with foundFeasible := true }

/-- Modelled from the spec: reduce-or-branch.  A box whose refined upper bound
cannot exceed the global lower bound is discarded; a degenerate box (a single
candidate point) is not split further; otherwise the box is split and both
children join the working set. -/
def liveAfter {Kr : ℕ} {W : Type} (P : BRBParams Kr W) (lbNew : ℚ)
    (box : Box Kr) (rest : List (Box Kr)) : List (Box Kr) :=
  if wsum P.weights box.upper ≤ lbNew then rest
  else if box.lower = box.upper then rest
  else splitBox box (wsum P.weights box.upper) box.cachedL ++ rest

/-- One outer iteration applied to a selected box: bound, update the
incumbent, prune or branch, recompute the global upper bound and append the
per-iteration records. -/
def brbStepGo {Kr : ℕ} {W : Type} (P : BRBParams Kr W) (st : EngineState Kr W)
    (box : Box Kr) (rest : List (Box Kr)) : EngineState Kr W :=
  let st1 := incumbentUpdate P st (candOf P box)
  let live' := liveAfter P st1.lb box rest
  { bestFeasible := st1.bestFeasible
    bestW := st1.bestW
    lb := st1.lb
    foundFeasible := st1.foundFeasible
    live := live'
    iters := st.iters + 1
    evals := st.evals + nEvalOf P box
    evalHist := st.evalHist ++ [nEvalOf P box]
    boundHist := st.boundHist ++ [(st1.lb, globalUB live')]
    boxHist :=
      if P.saveBoxes then
        st.boxHist ++ [live'.map fun b => (b.lower, b.upper)]
      else st.boxHist }

/-- Modelled from the spec: one outer iteration of the engine (select, bound,
update incumbent, prune or branch, recompute the global upper bound, record).
With an empty working set there is nothing to select and the state is
returned unchanged; the loop has already stopped in that case. -/
def brbStep {Kr : ℕ} {W : Type} (P : BRBParams Kr W) (st : EngineState Kr W) :
    EngineState Kr W :=
  match selectMax st.live with
  | none => st
  | some br => brbStepGo P st br.1 br.2

/-- Whether the reported gap has closed: global upper bound at most global
lower bound plus epsilon. -/
def gapClosed {Kr : ℕ} {W : Type} (P : BRBParams Kr W)
    (st : EngineState Kr W) : Bool :=
  decide (globalUB st.live ≤ ((st.lb + P.epsilon : ℚ) : WithBot ℚ))

/-- Modelled from the spec: the termination check after every iteration: the
epsilon gap has closed, or the iteration budget is consumed, or the
evaluation budget is consumed, or the working set is empty. -/
def shouldStop {Kr : ℕ} {W : Type} (P : BRBParams Kr W)
    (st : EngineState Kr W) : Bool :=
  gapClosed P st || decide (P.maxIterations ≤ st.iters) ||
  decide (P.maxFuncEvaluations ≤ st.evals) || st.live.isEmpty

/-- Modelled from the spec: the main loop, iterated with explicit fuel; the
iteration budget makes fuel = maxIterations sufficient, and the termination
check runs after every iteration. -/
def brbLoop {Kr : ℕ} {W : Type} (P : BRBParams Kr W) :
    ℕ → EngineState Kr W → EngineState Kr W
  | 0, st => st
  | fuel + 1, st =>
    let st' := brbStep P st
    if shouldStop P st' then st' else brbLoop P fuel st'

/-- Modelled from the spec: the terminal status of a finished run.
EmptyWorkingSet is the infeasible-problem report (all boxes pruned with no
feasible point ever established); otherwise the run converged when the gap
closed and exhausted its budget when it did not. -/
def finalStatus {Kr : ℕ} {W : Type} (P : BRBParams Kr W)
    (st : EngineState Kr W) : SolveStatus :=
  if st.live.isEmpty && !st.foundFeasible then SolveStatus.emptyWorkingSet
  else if gapClosed P st then SolveStatus.converged
  else SolveStatus.budgetExhausted

/-- Modelled from the spec: the outputs of a solve: bestFeasible, its witness
beamformer, the per-iteration evaluation counts, the per-iteration
(lower bound, upper bound) pairs, the optional box snapshots, the terminal
status and the number of outer iterations performed. -/
structure BRBResult (Kr : ℕ) (W : Type) where
  bestFeasible : Fin Kr → ℚ
  Woptimal : Option W
  totalNbrOfEvaluations : List ℕ
  bounds : List (ℚ × WithBot ℚ)
  boxes : List (List ((Fin Kr → ℚ) × (Fin Kr → ℚ)))
  status : SolveStatus
  iterations : ℕ

/-- Projection of a final engine state onto the result record. -/
def resultOf {Kr : ℕ} {W : Type} (P : BRBParams Kr W)
    (st : EngineState Kr W) : BRBResult Kr W :=
  { bestFeasible := st.bestFeasible
    Woptimal := st.bestW
    totalNbrOfEvaluations := st.evalHist
    bounds := st.boundHist
    boxes := st.boxHist
    status := finalStatus P st
    iterations := st.iters }

/-- Reading of a length-Kr list as a rate-space vector (validation has already
checked the length). -/
def listFun (xs : List ℚ) (Kr : ℕ) : Fin Kr → ℚ := fun i => xs.getD i 0

/-- The user weights as a vector. -/
def weightsOf (raw : RawInput) : Fin (rawKr raw) → ℚ :=
  listFun raw.weights (rawKr raw)

/-- The initial box's lower corner as a vector. -/
def lowerOf (raw : RawInput) : Fin (rawKr raw) → ℚ :=
  listFun raw.lowerCorner (rawKr raw)

/-- The initial box's upper corner as a vector. -/
def upperOf (raw : RawInput) : Fin (rawKr raw) → ℚ :=
  listFun raw.upperCorner (rawKr raw)

/-- Modelled from the spec: the seed of the search is the supplied
localFeasible point when present and the (trivially feasible) zero point
otherwise. -/
def seedOf (raw : RawInput) : Fin (rawKr raw) → ℚ :=
  match raw.localFeasible with
  | some l => listFun l (rawKr raw)
  | none => fun _ => 0

/-- Engine parameters assembled from the raw input; an omitted saveBoxes flag
defaults to not retaining snapshots. -/
def mkParams {W : Type} (raw : RawInput)
    (oracle : (Fin (rawKr raw) → ℚ) → Option W) : BRBParams (rawKr raw) W :=
  { weights := weightsOf raw
    epsilon := raw.epsilon
    maxIterations := raw.maxIterations
    maxFuncEvaluations := raw.maxFuncEvaluations
    oracle := oracle
    saveBoxes := raw.saveBoxes.getD false }

/-- Modelled from the spec: the initial box covering the rate region, cached
with its own weighted-sum bound above and the seed utility below. -/
def initBox (raw : RawInput) : Box (rawKr raw) :=
  ⟨lowerOf raw, upperOf raw, wsum (weightsOf raw) (upperOf raw),
    wsum (weightsOf raw) (seedOf raw)⟩

/-- Modelled from the spec: initialization of the search state: the incumbent
is the seed, the global lower bound its utility, and the working set is the
singleton initial box. -/
def initState (raw : RawInput) {W : Type} : EngineState (rawKr raw) W :=
  { bestFeasible := seedOf raw
    bestW := none
    lb := wsum (weightsOf raw) (seedOf raw)
    foundFeasible := raw.localFeasible.isSome
    live := [initBox raw]
    iters := 0
    evals := 0
    evalHist := []
    boundHist := []
    boxHist := [] }

/-- The final engine state of a run on a validated input. -/
def brbFinal {W : Type} (raw : RawInput)
    (oracle : (Fin (rawKr raw) → ℚ) → Option W) : EngineState (rawKr raw) W :=
  brbLoop (mkParams raw oracle) raw.maxIterations (initState raw)

/-- Modelled from the spec: the solve operation.  Validation runs first and an
InvalidInput condition is returned before any iteration; on a valid input the
engine runs and its final state is projected onto the result record. -/
def brbSolve {W : Type} (raw : RawInput)
    (oracle : (Fin (rawKr raw) → ℚ) → Option W) :
    Except InputFault (BRBResult (rawKr raw) W) :=
  match validateInput raw with
  | some f => Except.error f
  | none => Except.ok (resultOf (mkParams raw oracle) (brbFinal raw oracle))

/-- Invariant of the engine state, maintained by every outer iteration: live
boxes are well-formed and their cached upper bounds dominate their exact
weighted-sum bounds (and so the recorded global upper bound), the history
lengths track the iteration counter, recorded bound pairs are bracketed by the
current bounds and pairwise monotone, and the incumbent's witness beamformer
is the oracle's answer at the incumbent. -/
structure EngInv {Kr : ℕ} {W : Type} (P : BRBParams Kr W)
    (st : EngineState Kr W) : Prop where
  ordered : ∀ b ∈ st.live, ∀ i, b.lower i ≤ b.upper i
  cached : ∀ b ∈ st.live, wsum P.weights b.upper ≤ b.cachedU
  evalLen : st.evalHist.length = st.iters
  boundLen : st.boundHist.length = st.iters
  boxLenT : P.saveBoxes = true → st.boxHist.length = st.iters
  boxLenF : P.saveBoxes = false → st.boxHist = []
  histBound : ∀ a ∈ st.boundHist, a.1 ≤ st.lb ∧ globalUB st.live ≤ a.2
  histPairwise : st.boundHist.Pairwise fun a c => a.1 ≤ c.1 ∧ c.2 ≤ a.2
  bestWOracle : ∀ wm, st.bestW = some wm → P.oracle st.bestFeasible = some wm

/-! ### Concrete inputs used by the witnesses -/

/-- A valid two-iteration example input with one user. -/
def rawEx : RawInput :=
  { hShape := (1, 2)
    dShape := (2, 2, 1)
    qsqrtShape := (3, 3, 2)
    qLength := 2
    weights := [1]
    lowerCorner := [0]
    upperCorner := [2]
    delta := 1
    epsilon := 1 / 2
    maxIterations := 2
    maxFuncEvaluations := 10
    localFeasible := none
    saveBoxes := some true }

/-- An oracle that certifies no rate point. -/
def oracleNone : (Fin (rawKr rawEx) → ℚ) → Option Unit := fun _ => none

/-- The example input restricted to a single iteration. -/
def rawOne : RawInput :=
  { rawEx with maxIterations := 1 }

/-- An oracle that certifies every rate point. -/
def oracleAll : (Fin (rawKr rawOne) → ℚ) → Option Unit := fun _ => some ()

/-- An oracle for the single-iteration input that certifies nothing. -/
def oracleOneNone : (Fin (rawKr rawOne) → ℚ) → Option Unit := fun _ => none

/-- An invalid input: its single user weight is negative. -/
def rawBad : RawInput :=
  { rawEx with weights := [-1] }

/-- An oracle for the invalid input that certifies nothing. -/
def oracleBadNone : (Fin (rawKr rawBad) → ℚ) → Option Unit := fun _ => none

/-- A concrete two-dimensional box whose longest side is coordinate 0. -/
def boxEx : Box 2 :=
  ⟨fun _ => 0, fun i => if i = 0 then 4 else 2, 0, 0⟩

/-- A concrete one-user, one-antenna channel matrix. -/
noncomputable def hEx : Matrix (Fin 1) (Fin 1) ℂ := 1

/-! ### Theorems

Rat arithmetic in Batteries is sealed behind irreducibility for performance;
the witnesses below evaluate the engine on concrete rational inputs, so the
arithmetic operations are made semireducible for kernel evaluation. -/

attribute [local semireducible] Rat.add Rat.sub Rat.mul Rat.inv Rat.ofScientific

/-! #### Beamforming routines: C8, C9, C10 -/

lemma vnorm_normalize {n : ℕ} (v : Fin n → ℂ) (hv : v ≠ 0) :
    vnorm (fun j => v j / (vnorm v : ℂ)) = 1 := by
  have hS0 : (0 : ℝ) ≤ ∑ j, Complex.normSq (v j) :=
    Finset.sum_nonneg fun j _ => Complex.normSq_nonneg _
  obtain ⟨j0, hj0⟩ := Function.ne_iff.mp hv
  have hSpos : (0 : ℝ) < ∑ j, Complex.normSq (v j) := by
    refine Finset.sum_pos' (fun j _ => Complex.normSq_nonneg _) ?_
    exact ⟨j0, Finset.mem_univ _, by simpa [Complex.normSq_pos] using hj0⟩
  have hc : (0 : ℝ) < vnorm v := Real.sqrt_pos.mpr hSpos
  have hcc : vnorm v * vnorm v = ∑ j, Complex.normSq (v j) :=
    Real.mul_self_sqrt hS0
  have hstep : ∀ j, Complex.normSq (v j / (vnorm v : ℂ)) =
      Complex.normSq (v j) / (vnorm v * vnorm v) := by
    intro j
    rw [Complex.normSq_div, Complex.normSq_ofReal]
  have hsum : ∑ j, Complex.normSq (v j / (vnorm v : ℂ)) =
      (∑ j, Complex.normSq (v j)) / (vnorm v * vnorm v) := by
    rw [Finset.sum_div]
    exact Finset.sum_congr rfl fun j _ => hstep j
  show Real.sqrt (∑ j, Complex.normSq (v j / (vnorm v : ℂ))) = 1
  rw [hsum, ← hcc, div_self (mul_pos hc hc).ne', Real.sqrt_one]

/-- Claim C8: for every channel matrix h, mask stack d and user k whose masked
channel h[k,:]·d[k] is nonzero, column k of the matrix returned by mrt equals
the conjugate transpose of h[k,:]·d[k] divided by its Euclidean norm, and that
column has unit Euclidean norm. -/
theorem c8_mrt_column {kr n : ℕ} (h : Matrix (Fin kr) (Fin n) ℂ)
    (dOpt : Option (Fin kr → Matrix (Fin n) (Fin n) ℂ)) (k : Fin kr)
    (hne : maskedChannel h (dOpt.getD (defaultMask kr n)) k ≠ 0) :
    (∀ j, mrt h dOpt j k =
      maskedChannel h (dOpt.getD (defaultMask kr n)) k j /
        (vnorm (maskedChannel h (dOpt.getD (defaultMask kr n)) k) : ℂ)) ∧
    vnorm (fun j => mrt h dOpt j k) = 1 := by
  refine ⟨fun j => rfl, ?_⟩
  exact vnorm_normalize _ hne

/-- Witness for C8 at a concrete one-user, one-antenna channel. -/
theorem c8_mrt_column_witness :
    maskedChannel hEx ((none : Option (Fin 1 → Matrix (Fin 1) (Fin 1) ℂ)).getD
      (defaultMask 1 1)) 0 ≠ 0 ∧
    ((∀ j, mrt hEx none j 0 =
      maskedChannel hEx ((none : Option (Fin 1 → Matrix (Fin 1) (Fin 1) ℂ)).getD
        (defaultMask 1 1)) 0 j /
        (vnorm (maskedChannel hEx ((none : Option (Fin 1 → Matrix (Fin 1) (Fin 1) ℂ)).getD
          (defaultMask 1 1)) 0) : ℂ)) ∧
      vnorm (fun j => mrt hEx none j 0) = 1) := by
  have hne : maskedChannel hEx ((none : Option (Fin 1 → Matrix (Fin 1) (Fin 1) ℂ)).getD
      (defaultMask 1 1)) 0 ≠ 0 := by
    intro hcontra
    have h0 := congrFun hcontra 0
    simp [maskedChannel, defaultMask, hEx, Matrix.vecMul_one] at h0
  exact ⟨hne, c8_mrt_column hEx none 0 hne⟩

/-- Claim C9: calling mrt, slnr_max or zfbf with the mask d omitted is the
same as calling it with the stack of Kr identity matrices, and calling
slnr_max with eta omitted is the same as calling it with the all-ones
vector. -/
theorem c9_default_arguments {kr n : ℕ} (h : Matrix (Fin kr) (Fin n) ℂ)
    (etaOpt : Option (Fin kr → ℂ))
    (dOpt : Option (Fin kr → Matrix (Fin n) (Fin n) ℂ)) :
    mrt h none = mrt h (some (defaultMask kr n)) ∧
    slnr_max h etaOpt none = slnr_max h etaOpt (some (defaultMask kr n)) ∧
    slnr_max h none dOpt = slnr_max h (some fun _ => 1) dOpt ∧
    zfbf h none = zfbf h (some (defaultMask kr n)) :=
  ⟨rfl, rfl, rfl, rfl⟩

/-- Claim C10: the three beamforming routines are deterministic (identical
inputs produce identical output matrices) and each output's shape is the
transpose of h's shape. -/
theorem c10_deterministic_shape {kr n : ℕ}
    (h h' : Matrix (Fin kr) (Fin n) ℂ)
    (etaOpt etaOpt' : Option (Fin kr → ℂ))
    (dOpt dOpt' : Option (Fin kr → Matrix (Fin n) (Fin n) ℂ))
    (hh : h = h') (he : etaOpt = etaOpt') (hd : dOpt = dOpt') :
    (mrt h dOpt = mrt h' dOpt' ∧
     slnr_max h etaOpt dOpt = slnr_max h' etaOpt' dOpt' ∧
     zfbf h dOpt = zfbf h' dOpt') ∧
    (matShape (mrt h dOpt) = ((matShape h).2, (matShape h).1) ∧
     matShape (slnr_max h etaOpt dOpt) = ((matShape h).2, (matShape h).1) ∧
     matShape (zfbf h dOpt) = ((matShape h).2, (matShape h).1)) := by
  subst hh; subst he; subst hd
  exact ⟨⟨rfl, rfl, rfl⟩, rfl, rfl, rfl⟩

/-- Witness for C10 at a concrete channel with omitted optional arguments. -/
theorem c10_deterministic_shape_witness :
    (hEx = hEx ∧ (none : Option (Fin 1 → ℂ)) = none ∧
      (none : Option (Fin 1 → Matrix (Fin 1) (Fin 1) ℂ)) = none) ∧
    ((mrt hEx none = mrt hEx none ∧
      slnr_max hEx none none = slnr_max hEx none none ∧
      zfbf hEx none = zfbf hEx none) ∧
     (matShape (mrt hEx none) = ((matShape hEx).2, (matShape hEx).1) ∧
      matShape (slnr_max hEx none none) = ((matShape hEx).2, (matShape hEx).1) ∧
      matShape (zfbf hEx none) = ((matShape hEx).2, (matShape hEx).1))) :=
  ⟨⟨rfl, rfl, rfl⟩, c10_deterministic_shape hEx hEx none none none none rfl rfl rfl⟩

/-! #### The declared signature: C7 -/

/-- Claim C7 is refuted by the declared signature of brb_algorithm_cvx: a call
omitting local_feasible is not accepted (the parameter has no default), and no
problem-mode or save-boxes parameter is declared at all, so neither optional
argument exists, let alone with a default.  This contradicts the function's
own docstring, which documents all three as optional. -/
theorem c7_signature_refutes_optionals :
    acceptsOmitting brbAlgorithmCvxParams ("local_feasible") = false ∧
    declaresParam brbAlgorithmCvxParams ("problem_mode") = false ∧
    declaresParam brbAlgorithmCvxParams ("save_boxes") = false ∧
    declaresParam brbAlgorithmCvxParams ("local_feasible") = true := by
  decide

/-! #### Box splitting: C5 -/

lemma argmaxStep_fold_some {Kr : ℕ} (l u : Fin Kr → ℚ) :
    ∀ (xs : List (Fin Kr)) (acc : Option (Fin Kr)) (j : Fin Kr),
      xs.foldl (argmaxStep l u) acc = some j →
      (∀ b, acc = some b → u b - l b ≤ u j - l j) ∧
      (∀ i ∈ xs, u i - l i ≤ u j - l j) := by
  intro xs
  induction xs with
  | nil =>
    intro acc j h
    simp only [List.foldl_nil] at h
    refine ⟨fun b hb => ?_, by simp⟩
    rw [hb] at h
    obtain rfl : b = j := by injection h
    exact le_refl _
  | cons x t ih =>
    intro acc j h
    simp only [List.foldl_cons] at h
    obtain ⟨h1, h2⟩ := ih (argmaxStep l u acc x) j h
    constructor
    · intro b hb
      subst hb
      by_cases hlt : u b - l b < u x - l x
      · exact le_trans (le_of_lt hlt) (h1 x (by simp [argmaxStep, hlt]))
      · exact h1 b (by simp [argmaxStep, hlt])
    · intro i hi
      rcases List.mem_cons.mp hi with rfl | hit
      · cases acc with
        | none => exact h1 i rfl
        | some b =>
          by_cases hlt : u b - l b < u i - l i
          · exact h1 i (by simp [argmaxStep, hlt])
          · exact le_trans (le_of_not_lt hlt) (h1 b (by simp [argmaxStep, hlt]))
      · exact h2 i hit

lemma argmaxSide_spec {Kr : ℕ} {l u : Fin Kr → ℚ} {j : Fin Kr}
    (h : argmaxSide l u = some j) : ∀ i, u i - l i ≤ u j - l j :=
  fun i =>
    (argmaxStep_fold_some l u (List.finRange Kr) none j h).2 i
      (List.mem_finRange i)

lemma argmaxStep_fold_none {Kr : ℕ} (l u : Fin Kr → ℚ) :
    ∀ (xs : List (Fin Kr)) (acc : Option (Fin Kr)),
      xs.foldl (argmaxStep l u) acc = none → xs = [] := by
  intro xs
  induction xs with
  | nil => intro acc _; rfl
  | cons x t ih =>
    intro acc h
    simp only [List.foldl_cons] at h
    have ht := ih (argmaxStep l u acc x) h
    subst ht
    simp only [List.foldl_nil] at h
    cases acc with
    | none => exact absurd h (by simp [argmaxStep])
    | some b =>
      by_cases hlt : u b - l b < u x - l x <;> simp [argmaxStep, hlt] at h

lemma argmaxSide_none {Kr : ℕ} {l u : Fin Kr → ℚ}
    (h : argmaxSide l u = none) : Kr = 0 := by
  have hnil := argmaxStep_fold_none l u (List.finRange Kr) none h
  have := congrArg List.length hnil
  simpa [List.length_finRange] using this

/-- Claim C5: branching splits a non-degenerate box along the coordinate j of
largest side length into exactly the two children of equal width on that axis;
the union of the children reconstructs the parent exactly and the children
overlap only on the shared splitting hyperplane. -/
theorem c5_split_halving {Kr : ℕ} (b : Box Kr) (uNew lNew : ℚ) (j : Fin Kr)
    (hord : ∀ i, b.lower i ≤ b.upper i) (hnd : b.lower ≠ b.upper)
    (hj : argmaxSide b.lower b.upper = some j) :
    splitBox b uNew lNew =
      [⟨b.lower, Function.update b.upper j ((b.lower j + b.upper j) / 2),
        uNew, lNew⟩,
       ⟨Function.update b.lower j ((b.lower j + b.upper j) / 2), b.upper,
        uNew, lNew⟩] ∧
    (∀ i, b.upper i - b.lower i ≤ b.upper j - b.lower j) ∧
    Function.update b.upper j ((b.lower j + b.upper j) / 2) j - b.lower j =
      (b.upper j - b.lower j) / 2 ∧
    b.upper j - Function.update b.lower j ((b.lower j + b.upper j) / 2) j =
      (b.upper j - b.lower j) / 2 ∧
    (∀ x, inBox b x ↔
      (inBox ⟨b.lower, Function.update b.upper j ((b.lower j + b.upper j) / 2),
        uNew, lNew⟩ x ∨
       inBox ⟨Function.update b.lower j ((b.lower j + b.upper j) / 2), b.upper,
        uNew, lNew⟩ x)) ∧
    (∀ x,
      inBox ⟨b.lower, Function.update b.upper j ((b.lower j + b.upper j) / 2),
        uNew, lNew⟩ x →
      inBox ⟨Function.update b.lower j ((b.lower j + b.upper j) / 2), b.upper,
        uNew, lNew⟩ x →
      x j = (b.lower j + b.upper j) / 2) := by
  have hmidlow : b.lower j ≤ (b.lower j + b.upper j) / 2 := by
    have := hord j; linarith
  have hmidupp : (b.lower j + b.upper j) / 2 ≤ b.upper j := by
    have := hord j; linarith
  refine ⟨by simp [splitBox, hj], argmaxSide_spec hj, ?_, ?_, ?_, ?_⟩
  · rw [Function.update_same]; ring
  · rw [Function.update_same]; ring
  · intro x
    simp only [inBox]
    constructor
    · intro hx
      rcases le_total (x j) ((b.lower j + b.upper j) / 2) with hle | hge
      · left
        intro i
        refine ⟨(hx i).1, ?_⟩
        by_cases hij : i = j
        · subst hij; rw [Function.update_same]; exact hle
        · rw [Function.update_noteq hij]; exact (hx i).2
      · right
        intro i
        refine ⟨?_, (hx i).2⟩
        by_cases hij : i = j
        · subst hij; rw [Function.update_same]; exact hge
        · rw [Function.update_noteq hij]; exact (hx i).1
    · rintro (hc | hc) <;> intro i
      · refine ⟨(hc i).1, ?_⟩
        by_cases hij : i = j
        · subst hij
          have := (hc i).2
          rw [Function.update_same] at this
          exact le_trans this hmidupp
        · have := (hc i).2
          rwa [Function.update_noteq hij] at this
      · refine ⟨?_, (hc i).2⟩
        by_cases hij : i = j
        · subst hij
          have := (hc i).1
          rw [Function.update_same] at this
          exact le_trans hmidlow this
        · have := (hc i).1
          rwa [Function.update_noteq hij] at this
  · intro x h1 h2
    simp only [inBox] at h1 h2
    have ha := (h1 j).2
    rw [Function.update_same] at ha
    have hb2 := (h2 j).1
    rw [Function.update_same] at hb2
    exact le_antisymm ha hb2

/-- Witness for C5 at a concrete two-dimensional box. -/
theorem c5_split_halving_witness :
    ((∀ i, boxEx.lower i ≤ boxEx.upper i) ∧ boxEx.lower ≠ boxEx.upper ∧
      argmaxSide boxEx.lower boxEx.upper = some 0) ∧
    (splitBox boxEx 7 3 =
      [⟨boxEx.lower,
        Function.update boxEx.upper 0 ((boxEx.lower 0 + boxEx.upper 0) / 2),
        7, 3⟩,
       ⟨Function.update boxEx.lower 0 ((boxEx.lower 0 + boxEx.upper 0) / 2),
        boxEx.upper, 7, 3⟩] ∧
    (∀ i, boxEx.upper i - boxEx.lower i ≤ boxEx.upper 0 - boxEx.lower 0) ∧
    Function.update boxEx.upper 0 ((boxEx.lower 0 + boxEx.upper 0) / 2) 0 -
        boxEx.lower 0 = (boxEx.upper 0 - boxEx.lower 0) / 2 ∧
    boxEx.upper 0 -
        Function.update boxEx.lower 0 ((boxEx.lower 0 + boxEx.upper 0) / 2) 0 =
      (boxEx.upper 0 - boxEx.lower 0) / 2 ∧
    (∀ x, inBox boxEx x ↔
      (inBox ⟨boxEx.lower,
        Function.update boxEx.upper 0 ((boxEx.lower 0 + boxEx.upper 0) / 2),
        7, 3⟩ x ∨
       inBox ⟨Function.update boxEx.lower 0 ((boxEx.lower 0 + boxEx.upper 0) / 2),
        boxEx.upper, 7, 3⟩ x)) ∧
    (∀ x,
      inBox ⟨boxEx.lower,
        Function.update boxEx.upper 0 ((boxEx.lower 0 + boxEx.upper 0) / 2),
        7, 3⟩ x →
      inBox ⟨Function.update boxEx.lower 0 ((boxEx.lower 0 + boxEx.upper 0) / 2),
        boxEx.upper, 7, 3⟩ x →
      x 0 = (boxEx.lower 0 + boxEx.upper 0) / 2)) := by
  refine ⟨⟨by decide, by decide, by decide⟩, ?_⟩
  exact c5_split_halving boxEx 7 3 0 (by decide) (by decide) (by decide)

/-! #### Engine helper lemmas -/

lemma selectMax_eq_none {Kr : ℕ} : ∀ {l : List (Box Kr)},
    selectMax l = none → l = [] := by
  intro l h
  cases l with
  | nil => rfl
  | cons b t =>
    exfalso
    simp only [selectMax] at h
    cases ht : selectMax t with
    | none => rw [ht] at h; exact absurd h (by simp)
    | some p =>
      rcases p with ⟨m, others⟩
      rw [ht] at h
      by_cases hc : m.cachedU ≤ b.cachedU <;> simp [hc] at h

lemma selectMax_spec {Kr : ℕ} : ∀ {l : List (Box Kr)} {b : Box Kr}
    {rest : List (Box Kr)}, selectMax l = some (b, rest) →
    b ∈ l ∧ (∀ x ∈ rest, x ∈ l) ∧ ∀ x ∈ l, x.cachedU ≤ b.cachedU := by
  intro l
  induction l with
  | nil => intro b rest h; simp [selectMax] at h
  | cons a t ih =>
    intro b rest h
    simp only [selectMax] at h
    cases ht : selectMax t with
    | none =>
      rw [ht] at h
      have htnil := selectMax_eq_none ht
      subst htnil
      simp only [Option.some.injEq, Prod.mk.injEq] at h
      obtain ⟨rfl, rfl⟩ := h
      refine ⟨List.mem_cons_self _ _, by simp, ?_⟩
      intro x hx
      rcases List.mem_cons.mp hx with rfl | hxt
      · exact le_refl _
      · cases hxt
    | some p =>
      rcases p with ⟨m, others⟩
      rw [ht] at h
      dsimp only at h
      obtain ⟨hm, hsub, hmax⟩ := ih ht
      by_cases hc : m.cachedU ≤ a.cachedU
      · rw [if_pos hc] at h
        simp only [Option.some.injEq, Prod.mk.injEq] at h
        obtain ⟨rfl, rfl⟩ := h
        refine ⟨List.mem_cons_self _ _,
          fun x hx => List.mem_cons_of_mem _ hx, ?_⟩
        intro x hx
        rcases List.mem_cons.mp hx with rfl | hxt
        · exact le_refl _
        · exact le_trans (hmax x hxt) hc
      · rw [if_neg hc] at h
        simp only [Option.some.injEq, Prod.mk.injEq] at h
        obtain ⟨rfl, rfl⟩ := h
        refine ⟨List.mem_cons_of_mem _ hm, ?_, ?_⟩
        · intro x hx
          rcases List.mem_cons.mp hx with rfl | hxo
          · exact List.mem_cons_self _ _
          · exact List.mem_cons_of_mem _ (hsub x hxo)
        · intro x hx
          rcases List.mem_cons.mp hx with rfl | hxt
          · exact le_of_not_le hc
          · exact hmax x hxt

lemma le_globalUB {Kr : ℕ} {boxes : List (Box Kr)} {b : Box Kr}
    (h : b ∈ boxes) : (b.cachedU : WithBot ℚ) ≤ globalUB boxes := by
  induction boxes with
  | nil => cases h
  | cons a t ih =>
    rcases List.mem_cons.mp h with rfl | ht
    · exact le_max_left _ _
    · exact le_trans (ih ht) (le_max_right _ _)

lemma globalUB_le {Kr : ℕ} {boxes : List (Box Kr)} {c : WithBot ℚ}
    (h : ∀ b ∈ boxes, (b.cachedU : WithBot ℚ) ≤ c) : globalUB boxes ≤ c := by
  induction boxes with
  | nil => exact bot_le
  | cons a t ih =>
    exact max_le (h a (List.mem_cons_self _ _))
      (ih fun b hb => h b (List.mem_cons_of_mem _ hb))

lemma wsum_mono {Kr : ℕ} {w p q : Fin Kr → ℚ} (hw : ∀ i, 0 ≤ w i)
    (hpq : ∀ i, p i ≤ q i) : wsum w p ≤ wsum w q :=
  Finset.sum_le_sum fun i _ => mul_le_mul_of_nonneg_left (hpq i) (hw i)

lemma wsum_zero {Kr : ℕ} (w : Fin Kr → ℚ) : wsum w (fun _ => 0) = 0 := by
  simp [wsum]

lemma candOf_spec {Kr : ℕ} {W : Type} {P : BRBParams Kr W} {box : Box Kr}
    {pw : (Fin Kr → ℚ) × W} (h : candOf P box = some pw) :
    P.oracle pw.1 = some pw.2 := by
  unfold candOf at h
  cases hu : P.oracle box.upper with
  | some wb =>
    rw [hu] at h
    dsimp only at h
    injection h with h'
    subst h'
    exact hu
  | none =>
    rw [hu] at h
    dsimp only at h
    cases hl : P.oracle box.lower with
    | some wb =>
      rw [hl] at h
      dsimp only at h
      injection h with h'
      subst h'
      exact hl
    | none => rw [hl] at h; cases h

lemma incumbentUpdate_live {Kr : ℕ} {W : Type} (P : BRBParams Kr W)
    (st : EngineState Kr W) (c : Option ((Fin Kr → ℚ) × W)) :
    (incumbentUpdate P st c).live = st.live := by
  cases c with
  | none => rfl
  | some pw =>
    unfold incumbentUpdate
    dsimp only
    split <;> rfl

lemma incumbentUpdate_lb_le {Kr : ℕ} {W : Type} (P : BRBParams Kr W)
    (st : EngineState Kr W) (c : Option ((Fin Kr → ℚ) × W)) :
    st.lb ≤ (incumbentUpdate P st c).lb := by
  cases c with
  | none => exact le_refl _
  | some pw =>
    unfold incumbentUpdate
    dsimp only
    by_cases hlt : st.lb < wsum P.weights pw.1
    · rw [if_pos hlt]; exact le_of_lt hlt
    · rw [if_neg hlt]

lemma incumbentUpdate_bestW {Kr : ℕ} {W : Type} {P : BRBParams Kr W}
    {st : EngineState Kr W} {c : Option ((Fin Kr → ℚ) × W)}
    (hst : ∀ wm, st.bestW = some wm → P.oracle st.bestFeasible = some wm)
    (hc : ∀ pw, c = some pw → P.oracle pw.1 = some pw.2) :
    ∀ wm, (incumbentUpdate P st c).bestW = some wm →
      P.oracle (incumbentUpdate P st c).bestFeasible = some wm := by
  cases c with
  | none => exact hst
  | some pw =>
    intro wm h
    unfold incumbentUpdate at h ⊢
    dsimp only at h ⊢
    by_cases hlt : st.lb < wsum P.weights pw.1
    · rw [if_pos hlt] at h ⊢
      dsimp only at h ⊢
      injection h with h'
      subst h'
      exact hc pw rfl
    · rw [if_neg hlt] at h ⊢
      exact hst wm h

lemma engInv_stepGo {Kr : ℕ} {W : Type} {P : BRBParams Kr W}
    {st : EngineState Kr W} {box : Box Kr} {rest : List (Box Kr)}
    (hw : ∀ i, 0 ≤ P.weights i)
    (hsel : selectMax st.live = some (box, rest))
    (h : EngInv P st) : EngInv P (brbStepGo P st box rest) := by
  obtain ⟨hmem, hsub, hmax⟩ := selectMax_spec hsel
  have hbord : ∀ i, box.lower i ≤ box.upper i := h.ordered box hmem
  have hbcache : wsum P.weights box.upper ≤ box.cachedU := h.cached box hmem
  have hlb : st.lb ≤ (incumbentUpdate P st (candOf P box)).lb :=
    incumbentUpdate_lb_le P st _
  have hlive' : ∀ x ∈ liveAfter P (incumbentUpdate P st (candOf P box)).lb
      box rest,
      (∀ i, x.lower i ≤ x.upper i) ∧ wsum P.weights x.upper ≤ x.cachedU ∧
        (x.cachedU : WithBot ℚ) ≤ globalUB st.live := by
    have hof : ∀ y ∈ st.live, (∀ i, y.lower i ≤ y.upper i) ∧
        wsum P.weights y.upper ≤ y.cachedU ∧
        (y.cachedU : WithBot ℚ) ≤ globalUB st.live :=
      fun y hy => ⟨h.ordered y hy, h.cached y hy, le_globalUB hy⟩
    intro x hx
    unfold liveAfter at hx
    split_ifs at hx with h1 h2
    · exact hof x (hsub x hx)
    · exact hof x (hsub x hx)
    · rcases List.mem_append.mp hx with hsp | hre
      · unfold splitBox at hsp
        cases hj : argmaxSide box.lower box.upper with
        | none => rw [hj] at hsp; cases hsp
        | some j =>
          rw [hj] at hsp
          dsimp only at hsp
          have hmid1 : box.lower j ≤ (box.lower j + box.upper j) / 2 := by
            have := hbord j; linarith
          have hmid2 : (box.lower j + box.upper j) / 2 ≤ box.upper j := by
            have := hbord j; linarith
          have hUle : ((wsum P.weights box.upper : ℚ) : WithBot ℚ) ≤
              globalUB st.live :=
            le_trans (WithBot.coe_le_coe.mpr hbcache) (le_globalUB hmem)
          rcases List.mem_cons.mp hsp with rfl | hsp2
          · refine ⟨?_, ?_, hUle⟩
            · intro i
              dsimp only
              by_cases hij : i = j
              · subst hij; rw [Function.update_same]; exact hmid1
              · rw [Function.update_noteq hij]; exact hbord i
            · dsimp only
              refine wsum_mono hw ?_
              intro i
              by_cases hij : i = j
              · subst hij; rw [Function.update_same]; exact hmid2
              · rw [Function.update_noteq hij]
          · rcases List.mem_cons.mp hsp2 with rfl | hsp3
            · refine ⟨?_, le_refl _, hUle⟩
              intro i
              dsimp only
              by_cases hij : i = j
              · subst hij; rw [Function.update_same]; exact hmid2
              · rw [Function.update_noteq hij]; exact hbord i
            · cases hsp3
      · exact hof x (hsub x hre)
  have hubmono : globalUB (liveAfter P (incumbentUpdate P st (candOf P box)).lb
      box rest) ≤ globalUB st.live :=
    globalUB_le fun x hx => (hlive' x hx).2.2
  refine ⟨fun b hb => (hlive' b hb).1, fun b hb => (hlive' b hb).2.1,
    ?_, ?_, ?_, ?_, ?_, ?_, ?_⟩
  · show (st.evalHist ++ [nEvalOf P box]).length = st.iters + 1
    simp [h.evalLen]
  · show (st.boundHist ++ [((incumbentUpdate P st (candOf P box)).lb,
      globalUB (liveAfter P (incumbentUpdate P st (candOf P box)).lb box
        rest))]).length = st.iters + 1
    simp [h.boundLen]
  · intro hs
    show (if P.saveBoxes then st.boxHist ++ [(liveAfter P
        (incumbentUpdate P st (candOf P box)).lb box rest).map
        fun b => (b.lower, b.upper)] else st.boxHist).length = st.iters + 1
    rw [hs, if_pos rfl]
    simp [h.boxLenT hs]
  · intro hs
    show (if P.saveBoxes then st.boxHist ++ [(liveAfter P
        (incumbentUpdate P st (candOf P box)).lb box rest).map
        fun b => (b.lower, b.upper)] else st.boxHist) = []
    rw [hs, if_neg (by simp)]
    exact h.boxLenF hs
  · intro a ha
    rcases List.mem_append.mp ha with hold | hnew
    · exact ⟨le_trans (h.histBound a hold).1 hlb,
        le_trans hubmono (h.histBound a hold).2⟩
    · rcases List.mem_singleton.mp hnew with rfl
      exact ⟨le_refl _, le_refl _⟩
  · refine List.pairwise_append.mpr ⟨h.histPairwise, by simp, ?_⟩
    intro a ha bb hbb
    rcases List.mem_singleton.mp hbb with rfl
    exact ⟨le_trans (h.histBound a ha).1 hlb,
      le_trans hubmono (h.histBound a ha).2⟩
  · exact incumbentUpdate_bestW h.bestWOracle fun pw hpw => candOf_spec hpw

lemma engInv_step {Kr : ℕ} {W : Type} {P : BRBParams Kr W}
    {st : EngineState Kr W} (hw : ∀ i, 0 ≤ P.weights i)
    (h : EngInv P st) : EngInv P (brbStep P st) := by
  cases hsel : selectMax st.live with
  | none => unfold brbStep; rw [hsel]; exact h
  | some br =>
    rcases br with ⟨box, rest⟩
    unfold brbStep
    rw [hsel]
    exact engInv_stepGo hw hsel h

lemma engInv_loop {Kr : ℕ} {W : Type} {P : BRBParams Kr W}
    (hw : ∀ i, 0 ≤ P.weights i) :
    ∀ (fuel : ℕ) (st : EngineState Kr W),
      EngInv P st → EngInv P (brbLoop P fuel st) := by
  intro fuel
  induction fuel with
  | zero => intro st h; exact h
  | succ n ih =>
    intro st h
    unfold brbLoop
    dsimp only
    split
    · exact engInv_step hw h
    · exact ih _ (engInv_step hw h)

lemma all_getD {xs : List ℚ} {p : ℚ → Bool} (h : xs.all p = true) {i : ℕ}
    (hi : i < xs.length) : p (xs.getD i 0) = true := by
  rw [List.getD_eq_getElem xs 0 hi]
  exact List.all_eq_true.mp h _ (List.getElem_mem hi)

lemma zip_all_le : ∀ (xs ys : List ℚ),
    ((xs.zip ys).all fun q => decide (q.1 ≤ q.2)) = true →
    ∀ i : ℕ, i < xs.length → i < ys.length → xs.getD i 0 ≤ ys.getD i 0 := by
  intro xs
  induction xs with
  | nil => intro ys h i hi; simp at hi
  | cons a t ih =>
    intro ys h i hix hiy
    cases ys with
    | nil => simp at hiy
    | cons b s =>
      simp only [List.zip_cons_cons, List.all_cons, Bool.and_eq_true,
        decide_eq_true_eq] at h
      obtain ⟨hab, hrest⟩ := h
      cases i with
      | zero => simpa using hab
      | succ m =>
        simp only [List.getD_cons_succ]
        exact ih s hrest m (by simpa using hix) (by simpa using hiy)

lemma bool_of_not_not {b : Bool} (h : ¬((!b) = true)) : b = true := by
  cases b with
  | false => exact absurd rfl h
  | true => rfl

lemma validate_none_checks {raw : RawInput} (h : validateInput raw = none) :
    shapesOk raw = true ∧ weightsOk raw = true ∧ cornersOrdered raw = true ∧
    ratesNonneg raw = true ∧ paramsPositive raw = true := by
  unfold validateInput at h
  split_ifs at h with h1 h2 h3 h4 h5
  exact ⟨bool_of_not_not h1, bool_of_not_not h2, bool_of_not_not h3,
    bool_of_not_not h4, bool_of_not_not h5⟩

lemma shapesOk_lengths {raw : RawInput} (h : shapesOk raw = true) :
    raw.weights.length = rawKr raw ∧ raw.lowerCorner.length = rawKr raw ∧
    raw.upperCorner.length = rawKr raw := by
  unfold shapesOk at h
  simp only [Bool.and_eq_true, decide_eq_true_eq] at h
  obtain ⟨⟨⟨⟨⟨⟨hc1, hc2⟩, hc3⟩, hc4⟩, hc5⟩, hc6⟩, hc7⟩ := h
  exact ⟨hc4, hc5, hc6⟩

lemma weights_pos {raw : RawInput} (hv : validateInput raw = none) :
    ∀ i : Fin (rawKr raw), 0 < weightsOf raw i := by
  obtain ⟨hs, hwt, _, _, _⟩ := validate_none_checks hv
  obtain ⟨hlen, _, _⟩ := shapesOk_lengths hs
  intro i
  have hi : (i : ℕ) < raw.weights.length := by rw [hlen]; exact i.isLt
  have hp := all_getD (p := fun x => decide (0 < x)) hwt hi
  simpa [weightsOf, listFun] using hp

lemma weights_nonneg {raw : RawInput} (hv : validateInput raw = none) :
    ∀ i : Fin (rawKr raw), 0 ≤ weightsOf raw i :=
  fun i => le_of_lt (weights_pos hv i)

lemma corners_le {raw : RawInput} (hv : validateInput raw = none) :
    ∀ i : Fin (rawKr raw), lowerOf raw i ≤ upperOf raw i := by
  obtain ⟨hs, _, hco, _, _⟩ := validate_none_checks hv
  obtain ⟨_, hlenl, hlenu⟩ := shapesOk_lengths hs
  intro i
  have h1 : (i : ℕ) < raw.lowerCorner.length := by rw [hlenl]; exact i.isLt
  have h2 : (i : ℕ) < raw.upperCorner.length := by rw [hlenu]; exact i.isLt
  exact zip_all_le raw.lowerCorner raw.upperCorner hco i h1 h2

lemma params_pos {raw : RawInput} (hv : validateInput raw = none) :
    0 < raw.epsilon ∧ 0 < raw.maxIterations ∧ 0 < raw.maxFuncEvaluations := by
  obtain ⟨_, _, _, _, hp⟩ := validate_none_checks hv
  unfold paramsPositive at hp
  simp only [Bool.and_eq_true, decide_eq_true_eq] at hp
  exact ⟨hp.1.1.2, hp.1.2, hp.2⟩

lemma engInv_init {W : Type} {raw : RawInput}
    (oracle : (Fin (rawKr raw) → ℚ) → Option W)
    (hv : validateInput raw = none) :
    EngInv (mkParams raw oracle) (initState raw) := by
  refine ⟨?_, ?_, rfl, rfl, fun _ => rfl, fun _ => rfl, ?_, ?_, ?_⟩
  · intro b hb
    obtain rfl := List.mem_singleton.mp hb
    exact corners_le hv
  · intro b hb
    obtain rfl := List.mem_singleton.mp hb
    exact le_refl _
  · intro a ha; cases ha
  · exact List.Pairwise.nil
  · intro wm hwm; cases hwm

lemma brbSolve_ok {W : Type} {raw : RawInput}
    (oracle : (Fin (rawKr raw) → ℚ) → Option W)
    (hv : validateInput raw = none) :
    brbSolve raw oracle =
      Except.ok (resultOf (mkParams raw oracle) (brbFinal raw oracle)) := by
  unfold brbSolve
  rw [hv]

lemma brbStep_iters {Kr : ℕ} {W : Type} {P : BRBParams Kr W}
    {st : EngineState Kr W} (h : st.live ≠ []) :
    (brbStep P st).iters = st.iters + 1 := by
  cases hsel : selectMax st.live with
  | none => exact absurd (selectMax_eq_none hsel) h
  | some br =>
    unfold brbStep
    rw [hsel]
    rfl

lemma shouldStop_false_live {Kr : ℕ} {W : Type} {P : BRBParams Kr W}
    {st : EngineState Kr W} (h : shouldStop P st = false) : st.live ≠ [] := by
  intro hnil
  unfold shouldStop at h
  simp only [Bool.or_eq_false_iff] at h
  have := h.2
  rw [hnil] at this
  simp at this

lemma brbLoop_stops {Kr : ℕ} {W : Type} (P : BRBParams Kr W) :
    ∀ (fuel : ℕ) (st : EngineState Kr W), st.live ≠ [] →
      P.maxIterations ≤ st.iters + fuel → 1 ≤ fuel →
      ∃ n, 1 ≤ n ∧ n ≤ fuel ∧ brbLoop P fuel st = (brbStep P)^[n] st ∧
        shouldStop P ((brbStep P)^[n] st) = true ∧
        ∀ m, 1 ≤ m → m < n → shouldStop P ((brbStep P)^[m] st) = false := by
  intro fuel
  induction fuel with
  | zero => intro st _ _ hcon; exact absurd hcon (by simp)
  | succ f ih =>
    intro st hlive hbudget _
    by_cases hstop : shouldStop P (brbStep P st) = true
    · refine ⟨1, le_refl _, by simp, ?_, ?_, ?_⟩
      · unfold brbLoop
        dsimp only
        rw [if_pos hstop, Function.iterate_one]
      · rw [Function.iterate_one]; exact hstop
      · intro m hm1 hm2; omega
    · have hstop' : shouldStop P (brbStep P st) = false :=
        Bool.not_eq_true _ ▸ (by simpa using hstop)
      have hlive' : (brbStep P st).live ≠ [] := shouldStop_false_live hstop'
      have hiters : (brbStep P st).iters = st.iters + 1 := brbStep_iters hlive
      cases f with
      | zero =>
        exfalso
        have : P.maxIterations ≤ (brbStep P st).iters := by omega
        have : shouldStop P (brbStep P st) = true := by
          unfold shouldStop
          simp [this]
        exact hstop this
      | succ f' =>
        have hbudget' : P.maxIterations ≤ (brbStep P st).iters + (f' + 1) := by
          omega
        obtain ⟨n, hn1, hn2, hloop, hstopn, hbefore⟩ :=
          ih (brbStep P st) hlive' hbudget' (by omega)
        refine ⟨n + 1, by omega, by omega, ?_, ?_, ?_⟩
        · unfold brbLoop
          dsimp only
          rw [if_neg (by simp [hstop']), hloop,
            Function.iterate_succ_apply]
        · rw [Function.iterate_succ_apply]; exact hstopn
        · intro m hm1 hm2
          cases m with
          | zero => omega
          | succ m' =>
            rw [Function.iterate_succ_apply]
            cases Nat.eq_zero_or_pos m' with
            | inl hz => subst hz; simpa using hstop'
            | inr hpos => exact hbefore m' hpos (by omega)

lemma brbLoop_one {Kr : ℕ} {W : Type} (P : BRBParams Kr W)
    (st : EngineState Kr W) : brbLoop P 1 st = brbStep P st := by
  unfold brbLoop
  dsimp only
  split <;> rfl

/-! #### The solve operation: C1, C2, C3, C4, C6 -/

/-- Claim C1: on every valid input the solve operation returns a result whose
bestFeasible is a length-Kr rate vector (a function on Fin Kr by its type),
whose totalNbrOfEvaluations and bounds sequences carry exactly one entry per
outer iteration performed, whose per-iteration box snapshots are retained
exactly when saveBoxes was requested, and whose Woptimal, when present, is the
oracle's witness beamforming matrix realizing bestFeasible. -/
theorem c1_solve_outputs (W : Type) (raw : RawInput)
    (oracle : (Fin (rawKr raw) → ℚ) → Option W)
    (hv : validInput raw = true) :
    brbSolve raw oracle =
      Except.ok (resultOf (mkParams raw oracle) (brbFinal raw oracle)) ∧
    (resultOf (mkParams raw oracle) (brbFinal raw oracle)).bounds.length =
      (resultOf (mkParams raw oracle) (brbFinal raw oracle)).iterations ∧
    (resultOf (mkParams raw oracle)
        (brbFinal raw oracle)).totalNbrOfEvaluations.length =
      (resultOf (mkParams raw oracle) (brbFinal raw oracle)).iterations ∧
    (raw.saveBoxes.getD false = true →
      (resultOf (mkParams raw oracle) (brbFinal raw oracle)).boxes.length =
        (resultOf (mkParams raw oracle) (brbFinal raw oracle)).iterations) ∧
    (raw.saveBoxes.getD false = false →
      (resultOf (mkParams raw oracle) (brbFinal raw oracle)).boxes = []) ∧
    (∀ wm,
      (resultOf (mkParams raw oracle) (brbFinal raw oracle)).Woptimal =
        some wm →
      oracle (resultOf (mkParams raw oracle)
        (brbFinal raw oracle)).bestFeasible = some wm) := by
  have hv' : validateInput raw = none := Option.isNone_iff_eq_none.mp hv
  have hinv := engInv_loop (weights_nonneg hv') raw.maxIterations
    (initState raw) (engInv_init oracle hv')
  exact ⟨brbSolve_ok oracle hv', hinv.boundLen, hinv.evalLen,
    hinv.boxLenT, hinv.boxLenF, hinv.bestWOracle⟩

/-- Witness for C1 at a concrete valid input requesting box snapshots. -/
theorem c1_solve_outputs_witness :
    validInput rawEx = true ∧
    (brbSolve rawEx oracleNone =
      Except.ok (resultOf (mkParams rawEx oracleNone)
        (brbFinal rawEx oracleNone)) ∧
    (resultOf (mkParams rawEx oracleNone)
        (brbFinal rawEx oracleNone)).bounds.length =
      (resultOf (mkParams rawEx oracleNone)
        (brbFinal rawEx oracleNone)).iterations ∧
    (resultOf (mkParams rawEx oracleNone)
        (brbFinal rawEx oracleNone)).totalNbrOfEvaluations.length =
      (resultOf (mkParams rawEx oracleNone)
        (brbFinal rawEx oracleNone)).iterations ∧
    (rawEx.saveBoxes.getD false = true →
      (resultOf (mkParams rawEx oracleNone)
        (brbFinal rawEx oracleNone)).boxes.length =
        (resultOf (mkParams rawEx oracleNone)
          (brbFinal rawEx oracleNone)).iterations) ∧
    (rawEx.saveBoxes.getD false = false →
      (resultOf (mkParams rawEx oracleNone)
        (brbFinal rawEx oracleNone)).boxes = []) ∧
    (∀ wm,
      (resultOf (mkParams rawEx oracleNone)
        (brbFinal rawEx oracleNone)).Woptimal = some wm →
      oracleNone (resultOf (mkParams rawEx oracleNone)
        (brbFinal rawEx oracleNone)).bestFeasible = some wm)) :=
  ⟨by decide, c1_solve_outputs Unit rawEx oracleNone (by decide)⟩

/-- Claim C2: along every run on a valid input, the reported per-iteration
global lower bounds are non-decreasing and the reported global upper bounds
are non-increasing. -/
theorem c2_bounds_monotone (W : Type) (raw : RawInput)
    (oracle : (Fin (rawKr raw) → ℚ) → Option W)
    (hv : validInput raw = true) :
    brbSolve raw oracle =
      Except.ok (resultOf (mkParams raw oracle) (brbFinal raw oracle)) ∧
    ∀ i j (hi : i < (brbFinal raw oracle).boundHist.length)
      (hj : j < (brbFinal raw oracle).boundHist.length), i ≤ j →
      ((brbFinal raw oracle).boundHist.get ⟨i, hi⟩).1 ≤
        ((brbFinal raw oracle).boundHist.get ⟨j, hj⟩).1 ∧
      ((brbFinal raw oracle).boundHist.get ⟨j, hj⟩).2 ≤
        ((brbFinal raw oracle).boundHist.get ⟨i, hi⟩).2 := by
  have hv' : validateInput raw = none := Option.isNone_iff_eq_none.mp hv
  have hinv := engInv_loop (weights_nonneg hv') raw.maxIterations
    (initState raw) (engInv_init oracle hv')
  refine ⟨brbSolve_ok oracle hv', ?_⟩
  intro i j hi hj hij
  rcases eq_or_lt_of_le hij with rfl | hlt
  · exact ⟨le_refl _, le_refl _⟩
  · exact List.pairwise_iff_get.mp hinv.histPairwise ⟨i, hi⟩ ⟨j, hj⟩ hlt

/-- Witness for C2 at a concrete two-iteration run. -/
theorem c2_bounds_monotone_witness :
    validInput rawEx = true ∧
    (((brbFinal rawEx oracleNone).boundHist.get ⟨0, by decide⟩).1 ≤
      ((brbFinal rawEx oracleNone).boundHist.get ⟨1, by decide⟩).1 ∧
    ((brbFinal rawEx oracleNone).boundHist.get ⟨1, by decide⟩).2 ≤
      ((brbFinal rawEx oracleNone).boundHist.get ⟨0, by decide⟩).2) :=
  ⟨by decide,
    (c2_bounds_monotone Unit rawEx oracleNone (by decide)).2 0 1
      (by decide) (by decide) (by decide)⟩

/-- Claim C3: on every valid input the main loop runs some number n ≥ 1 of
outer iterations, the termination predicate (gap at most epsilon, or the
iteration budget consumed, or the evaluation budget consumed, or an empty
working set) holds after iteration n, and it failed after every earlier
iteration — in particular the run never stops while no condition holds. -/
theorem c3_termination (W : Type) (raw : RawInput)
    (oracle : (Fin (rawKr raw) → ℚ) → Option W)
    (hv : validInput raw = true) :
    ∃ n, 1 ≤ n ∧ n ≤ raw.maxIterations ∧
      brbFinal raw oracle =
        (brbStep (mkParams raw oracle))^[n] (initState raw) ∧
      shouldStop (mkParams raw oracle)
        ((brbStep (mkParams raw oracle))^[n] (initState raw)) = true ∧
      ∀ m, 1 ≤ m → m < n →
        shouldStop (mkParams raw oracle)
          ((brbStep (mkParams raw oracle))^[m] (initState raw)) = false := by
  have hv' : validateInput raw = none := Option.isNone_iff_eq_none.mp hv
  obtain ⟨_, hmi, _⟩ := params_pos hv'
  exact brbLoop_stops (mkParams raw oracle) raw.maxIterations (initState raw)
    (List.cons_ne_nil _ _)
    (show raw.maxIterations ≤ 0 + raw.maxIterations by omega) hmi

/-- Witness for C3 at a concrete run. -/
theorem c3_termination_witness :
    validInput rawEx = true ∧
    (∃ n, 1 ≤ n ∧ n ≤ rawEx.maxIterations ∧
      brbFinal rawEx oracleNone =
        (brbStep (mkParams rawEx oracleNone))^[n] (initState rawEx) ∧
      shouldStop (mkParams rawEx oracleNone)
        ((brbStep (mkParams rawEx oracleNone))^[n] (initState rawEx)) = true ∧
      ∀ m, 1 ≤ m → m < n →
        shouldStop (mkParams rawEx oracleNone)
          ((brbStep (mkParams rawEx oracleNone))^[m] (initState rawEx)) =
          false) :=
  ⟨by decide, c3_termination Unit rawEx oracleNone (by decide)⟩

/-- Claim C4: an input with malformed dimensions, a non-positive weight, an
unordered corner pair or a negative rate coordinate makes validation report a
fault, and the solve operation returns that InvalidInput fault without
running any iteration (no result record, hence no partial search state, is
produced). -/
theorem c4_invalid_input (W : Type) (raw : RawInput)
    (oracle : (Fin (rawKr raw) → ℚ) → Option W)
    (hbad : shapesOk raw = false ∨ weightsOk raw = false ∨
      cornersOrdered raw = false ∨ ratesNonneg raw = false) :
    (validateInput raw).isSome = true ∧
    brbSolve raw oracle =
      Except.error ((validateInput raw).getD InputFault.shapeMismatch) := by
  have hsome : (validateInput raw).isSome = true := by
    unfold validateInput
    split_ifs with h1 h2 h3 h4 h5
    · rfl
    · rfl
    · rfl
    · rfl
    · rfl
    · exfalso
      rcases hbad with hb | hb | hb | hb
      · rw [bool_of_not_not h1] at hb; exact Bool.noConfusion hb
      · rw [bool_of_not_not h2] at hb; exact Bool.noConfusion hb
      · rw [bool_of_not_not h3] at hb; exact Bool.noConfusion hb
      · rw [bool_of_not_not h4] at hb; exact Bool.noConfusion hb
  cases hval : validateInput raw with
  | none => rw [hval] at hsome; exact absurd hsome (by simp)
  | some f =>
    constructor
    · rfl
    · unfold brbSolve
      rw [hval]
      rfl

/-- Witness for C4 at a concrete input with a negative weight. -/
theorem c4_invalid_input_witness :
    weightsOk rawBad = false ∧
    ((validateInput rawBad).isSome = true ∧
    brbSolve rawBad oracleBadNone =
      Except.error ((validateInput rawBad).getD InputFault.shapeMismatch)) :=
  ⟨by decide,
    c4_invalid_input Unit rawBad oracleBadNone (Or.inr (Or.inl (by decide)))⟩

/-- Claim C6 as stated is false: on a valid input with maxIterations = 1 and
no seed, an oracle that certifies the initial box's upper corner makes the
solve return that corner (not the zero point) with Converged status (not
BudgetExhausted). -/
theorem c6_counterexample :
    validInput rawOne = true ∧ rawOne.maxIterations = 1 ∧
    rawOne.localFeasible = none ∧
    ((brbSolve rawOne oracleAll).toOption.map fun r =>
      (decide (r.bestFeasible = fun _ => 0),
       decide (r.bestFeasible = fun _ => 2), r.status)) =
      some (false, true, SolveStatus.converged) := by
  refine ⟨by decide, rfl, rfl, ?_⟩
  decide

/-- Claim C6, amended: on every valid input the solve returns a result and
never an exception; when moreover maxIterations = 1, no seed is supplied, the
initial lower corner is the zero point, the oracle certifies neither corner of
the initial box in the single iteration, and the box's weighted upper bound
exceeds epsilon, the result is the zero point as bestFeasible with
BudgetExhausted status. -/
theorem c6_budget_exhausted (W : Type) (raw : RawInput)
    (oracle : (Fin (rawKr raw) → ℚ) → Option W)
    (hv : validInput raw = true) :
    brbSolve raw oracle =
      Except.ok (resultOf (mkParams raw oracle) (brbFinal raw oracle)) ∧
    (raw.maxIterations = 1 → raw.localFeasible = none →
     (∀ x ∈ raw.lowerCorner, x = (0 : ℚ)) →
     oracle (initBox raw).upper = none →
     oracle (initBox raw).lower = none →
     raw.epsilon < wsum (weightsOf raw) (upperOf raw) →
     (brbFinal raw oracle).bestFeasible = (fun _ => 0) ∧
     finalStatus (mkParams raw oracle) (brbFinal raw oracle) =
       SolveStatus.budgetExhausted) := by
  have hv' : validateInput raw = none := Option.isNone_iff_eq_none.mp hv
  refine ⟨brbSolve_ok oracle hv', ?_⟩
  intro h1 hlf hlz hou hol hgap
  have hε : 0 < raw.epsilon := (params_pos hv').1
  have hUpos : 0 < wsum (weightsOf raw) (upperOf raw) := lt_trans hε hgap
  have hseed : seedOf raw = fun _ => (0 : ℚ) := by
    unfold seedOf
    rw [hlf]
  have hlb0 : (initState (W := W) raw).lb = 0 := by
    show wsum (weightsOf raw) (seedOf raw) = 0
    rw [hseed]
    exact wsum_zero _
  have hlow : lowerOf raw = fun _ => (0 : ℚ) := by
    funext i
    unfold lowerOf listFun
    by_cases hi : (i : ℕ) < raw.lowerCorner.length
    · rw [List.getD_eq_getElem _ _ hi]
      exact hlz _ (List.getElem_mem hi)
    · rw [List.getD_eq_default _ _ (le_of_not_lt hi)]
  have hfin : brbFinal raw oracle =
      brbStep (mkParams raw oracle) (initState raw) := by
    unfold brbFinal
    rw [h1]
    exact brbLoop_one _ _
  have hstep : brbStep (mkParams raw oracle) (initState raw) =
      brbStepGo (mkParams raw oracle) (initState raw) (initBox raw) [] := by
    unfold brbStep
    rfl
  have hPoracle : (mkParams raw oracle).oracle = oracle := rfl
  have hcand : candOf (mkParams raw oracle) (initBox raw) = none := by
    unfold candOf
    rw [hPoracle, hou, hol]
  have hc1 : ¬(wsum (weightsOf raw) (upperOf raw) ≤
      (initState (W := W) raw).lb) := by
    rw [hlb0]
    exact not_le.mpr hUpos
  have hc2 : ¬((initBox raw).lower = (initBox raw).upper) := by
    intro hEq
    have hEq' : lowerOf raw = upperOf raw := hEq
    rw [hlow] at hEq'
    rw [← hEq', wsum_zero] at hUpos
    exact lt_irrefl _ hUpos
  have hliveF : (brbFinal raw oracle).live =
      splitBox (initBox raw) (wsum (weightsOf raw) (upperOf raw))
        (initBox raw).cachedL ++ [] := by
    rw [hfin, hstep]
    show liveAfter (mkParams raw oracle)
      (incumbentUpdate (mkParams raw oracle) (initState raw)
        (candOf (mkParams raw oracle) (initBox raw))).lb
      (initBox raw) [] = _
    rw [hcand]
    unfold liveAfter
    rw [if_neg (show ¬(wsum (mkParams raw oracle).weights
        (initBox raw).upper ≤
        (incumbentUpdate (mkParams raw oracle) (initState raw) none).lb)
      from hc1)]
    rw [if_neg hc2]
    rfl
  have hlbF : (brbFinal raw oracle).lb = 0 := by
    rw [hfin, hstep]
    show (incumbentUpdate (mkParams raw oracle) (initState raw)
      (candOf (mkParams raw oracle) (initBox raw))).lb = 0
    rw [hcand]
    exact hlb0
  have hbestF : (brbFinal raw oracle).bestFeasible = fun _ => (0 : ℚ) := by
    rw [hfin, hstep]
    show (incumbentUpdate (mkParams raw oracle) (initState raw)
      (candOf (mkParams raw oracle) (initBox raw))).bestFeasible = _
    rw [hcand]
    exact hseed
  refine ⟨hbestF, ?_⟩
  cases hj : argmaxSide (initBox raw).lower (initBox raw).upper with
  | none =>
    exfalso
    have hKr0 : rawKr raw = 0 := argmaxSide_none hj
    have hempty : IsEmpty (Fin (rawKr raw)) := by
      rw [hKr0]; exact Fin.isEmpty
    have hzero : wsum (weightsOf raw) (upperOf raw) = 0 := by
      unfold wsum
      haveI := hempty
      rw [Finset.univ_eq_empty, Finset.sum_empty]
    rw [hzero] at hUpos
    exact lt_irrefl _ hUpos
  | some j =>
    have hsplit : splitBox (initBox raw)
        (wsum (weightsOf raw) (upperOf raw)) (initBox raw).cachedL =
        [⟨(initBox raw).lower,
          Function.update (initBox raw).upper j
            (((initBox raw).lower j + (initBox raw).upper j) / 2),
          wsum (weightsOf raw) (upperOf raw), (initBox raw).cachedL⟩,
         ⟨Function.update (initBox raw).lower j
            (((initBox raw).lower j + (initBox raw).upper j) / 2),
          (initBox raw).upper,
          wsum (weightsOf raw) (upperOf raw), (initBox raw).cachedL⟩] := by
      unfold splitBox
      rw [hj]
    have hub : globalUB ((brbFinal raw oracle).live) =
        ((wsum (weightsOf raw) (upperOf raw) : ℚ) : WithBot ℚ) := by
      rw [hliveF, hsplit]
      show max ((wsum (weightsOf raw) (upperOf raw) : ℚ) : WithBot ℚ)
        (max ((wsum (weightsOf raw) (upperOf raw) : ℚ) : WithBot ℚ) ⊥) = _
      rw [max_eq_left bot_le, max_self]
    unfold finalStatus
    split_ifs with hA hB
    · exfalso
      rw [Bool.and_eq_true] at hA
      have hA1 := hA.1
      rw [hliveF, hsplit] at hA1
      exact Bool.noConfusion hA1
    · exfalso
      unfold gapClosed at hB
      rw [decide_eq_true_eq, hub, hlbF] at hB
      have hB' : wsum (weightsOf raw) (upperOf raw) ≤ 0 + raw.epsilon :=
        WithBot.coe_le_coe.mp hB
      rw [zero_add] at hB'
      exact absurd hB' (not_le.mpr hgap)
    · rfl

/-- Witness for the amended C6 at a concrete single-iteration input. -/
theorem c6_budget_exhausted_witness :
    (validInput rawOne = true ∧ rawOne.maxIterations = 1 ∧
      rawOne.localFeasible = none ∧ (∀ x ∈ rawOne.lowerCorner, x = (0 : ℚ)) ∧
      oracleOneNone (initBox rawOne).upper = none ∧
      oracleOneNone (initBox rawOne).lower = none ∧
      rawOne.epsilon < wsum (weightsOf rawOne) (upperOf rawOne)) ∧
    ((brbFinal rawOne oracleOneNone).bestFeasible = (fun _ => 0) ∧
     finalStatus (mkParams rawOne oracleOneNone)
       (brbFinal rawOne oracleOneNone) = SolveStatus.budgetExhausted) :=
  ⟨⟨by decide, rfl, rfl, by decide, rfl, rfl, by decide⟩,
    (c6_budget_exhausted Unit rawOne oracleOneNone (by decide)).2 rfl rfl
      (by decide) rfl rfl (by decide)⟩

end Pyforming
